import Mathlib

/-!
Verification of the polynomial curve segment core: `PolynomialSegment`
(src/packages/2d/src/curves/PolynomialSegment.ts) together with its
collaborators `Polynomial2D`, `CurvePoint` and
`UniformPolynomialCurveSampler`, whose files are not part of the sources
and are therefore modelled from the specification.

Numbers are modelled as real numbers.  Division by zero is total in Lean
(`x / 0 = 0`), which differs from IEEE NaN propagation; the places where
the original code divides by zero are called out explicitly.
-/

/-- A 2D vector with real coordinates, modelling the `Vector2` value type. -/
structure Vector2 where
  x : ℝ
  y : ℝ

instance : Inhabited Vector2 := ⟨⟨0, 0⟩⟩

namespace Vector2

/-- Componentwise difference of two vectors. -/
def sub (a b : Vector2) : Vector2 := ⟨a.x - b.x, a.y - b.y⟩

/-- Euclidean magnitude of a vector. -/
noncomputable def magnitude (v : Vector2) : ℝ := Real.sqrt (v.x ^ 2 + v.y ^ 2)

/-- Modelled from the spec: the tangent vectors handed out by the segment
are "always normalized"; `normalized` divides a vector by its magnitude. -/
noncomputable def normalized (v : Vector2) : Vector2 :=
  ⟨v.x / v.magnitude, v.y / v.magnitude⟩

/-- Linear interpolation from `a` to `b` by `r`. -/
def lerp (a b : Vector2) (r : ℝ) : Vector2 :=
  ⟨a.x + (b.x - a.x) * r, a.y + (b.y - a.y) * r⟩

/-- Euclidean distance between two points. -/
noncomputable def dist (a b : Vector2) : ℝ := (b.sub a).magnitude

end Vector2

/-- A point on a curve: position together with the normalized tangent. -/
structure CurvePoint where
  position : Vector2
  tangent : Vector2

/-- Modelled from the spec: a 2D parametric polynomial of degree at most 3,
stored by coefficients derived from the Bernstein basis, so that `eval` and
`evalDerivative` are closed-form (the `Polynomial2D` file is not among the
sources). -/
structure Polynomial2D where
  c0 : Vector2
  c1 : Vector2
  c2 : Vector2
  c3 : Vector2

namespace Polynomial2D

/-- Evaluate the polynomial at parameter `t`; values outside the unit
interval extrapolate per the polynomial formula. -/
def eval (p : Polynomial2D) (t : ℝ) : Vector2 :=
  ⟨p.c0.x + p.c1.x * t + p.c2.x * t ^ 2 + p.c3.x * t ^ 3,
   p.c0.y + p.c1.y * t + p.c2.y * t ^ 2 + p.c3.y * t ^ 3⟩

/-- Analytic (unnormalized) derivative of the polynomial at `t`. -/
def evalDerivative (p : Polynomial2D) (t : ℝ) : Vector2 :=
  ⟨p.c1.x + 2 * p.c2.x * t + 3 * p.c3.x * t ^ 2,
   p.c1.y + 2 * p.c2.y * t + 3 * p.c3.y * t ^ 2⟩

end Polynomial2D

/-- Modelled from the spec: the degree-2 polynomial of the quadratic Bezier
curve with control points `p0 p1 p2`, coefficients from the Bernstein
basis. -/
def quadBezierPolynomial (p0 p1 p2 : Vector2) : Polynomial2D :=
  ⟨p0,
   ⟨2 * (p1.x - p0.x), 2 * (p1.y - p0.y)⟩,
   ⟨p0.x - 2 * p1.x + p2.x, p0.y - 2 * p1.y + p2.y⟩,
   ⟨0, 0⟩⟩

/-- Modelled from the spec: the degree-3 polynomial of the cubic Bezier
curve with control points `p0 p1 p2 p3`, coefficients from the Bernstein
basis. -/
def cubicBezierPolynomial (p0 p1 p2 p3 : Vector2) : Polynomial2D :=
  ⟨p0,
   ⟨3 * (p1.x - p0.x), 3 * (p1.y - p0.y)⟩,
   ⟨3 * (p0.x - 2 * p1.x + p2.x), 3 * (p0.y - 2 * p1.y + p2.y)⟩,
   ⟨p3.x - p0.x + 3 * (p1.x - p2.x), p3.y - p0.y + 3 * (p1.y - p2.y)⟩⟩

/-- Modelled from the spec: `UniformPolynomialCurveSampler` approximates the
distance-to-parameter relationship of one curve by sampling it at `samples`
uniformly spaced parameter values (the sampler's file is not among the
sources).  The record stores the curve it samples and the fixed
resolution. -/
structure UniformPolynomialCurveSampler where
  curve : Polynomial2D
  samples : ℕ

namespace UniformPolynomialCurveSampler

/-- Parameter value of the i-th sample: `i / (samples - 1)`, uniformly
spaced in the unit interval. -/
noncomputable def sampleT (sp : UniformPolynomialCurveSampler) (i : ℕ) : ℝ :=
  (i : ℝ) / ((sp.samples : ℝ) - 1)

/-- Position of the i-th sample. -/
noncomputable def samplePos (sp : UniformPolynomialCurveSampler) (i : ℕ) : Vector2 :=
  sp.curve.eval (sp.sampleT i)

/-- Normalized tangent stored with the i-th sample. -/
noncomputable def sampleTangent (sp : UniformPolynomialCurveSampler) (i : ℕ) : Vector2 :=
  (sp.curve.evalDerivative (sp.sampleT i)).normalized

/-- Euclidean length of the i-th chord between consecutive samples. -/
noncomputable def chord (sp : UniformPolynomialCurveSampler) (i : ℕ) : ℝ :=
  Vector2.dist (sp.samplePos i) (sp.samplePos (i + 1))

/-- Cumulative distance of the i-th sample: the sum of the chord lengths
before it. -/
noncomputable def cumDist (sp : UniformPolynomialCurveSampler) (i : ℕ) : ℝ :=
  Finset.sum (Finset.range i) (sp.chord)

/-- Total sampled arc length: the cumulative distance of the last sample. -/
noncomputable def totalLength (sp : UniformPolynomialCurveSampler) : ℝ :=
  sp.cumDist (sp.samples - 1)

/-- Clamp a queried distance into the sampled range, per the spec: distances
outside the curve's distance range clamp to its ends. -/
noncomputable def clampDistance (sp : UniformPolynomialCurveSampler) (d : ℝ) : ℝ :=
  max 0 (min d sp.totalLength)

open Classical in
/-- Index of the bracketing sample pair for a (clamped) distance `d`: the
first `i` with `d ≤ cumDist (i + 1)`, falling back to the last available
pair.  The spec locates this pair by binary search; only the located pair,
not the search strategy, matters for the value. -/
noncomputable def bracket (sp : UniformPolynomialCurveSampler) (d : ℝ) : ℕ :=
  Nat.find (show ∃ i, d ≤ sp.cumDist (i + 1) ∨ sp.samples - 2 ≤ i from
    ⟨sp.samples - 2, Or.inr le_rfl⟩)

/-- Convert an arc-length distance to a parameter `t` by locating the
bracketing samples and interpolating `t` linearly between them,
proportionally to where `d` falls between their cumulative distances. -/
noncomputable def distanceToT (sp : UniformPolynomialCurveSampler) (d : ℝ) : ℝ :=
  let e := sp.clampDistance d
  let i := sp.bracket e
  sp.sampleT i +
    (e - sp.cumDist i) / (sp.cumDist (i + 1) - sp.cumDist i) *
      (sp.sampleT (i + 1) - sp.sampleT i)

/-- Return the curve point at an arc-length distance by locating the
bracketing samples and interpolating the stored positions and tangents
linearly between them. -/
noncomputable def pointAtDistance (sp : UniformPolynomialCurveSampler) (d : ℝ) : CurvePoint :=
  let e := sp.clampDistance d
  let i := sp.bracket e
  let r := (e - sp.cumDist i) / (sp.cumDist (i + 1) - sp.cumDist i)
  ⟨Vector2.lerp (sp.samplePos i) (sp.samplePos (i + 1)) r,
   Vector2.lerp (sp.sampleTangent i) (sp.sampleTangent (i + 1)) r⟩

end UniformPolynomialCurveSampler

/-- A primitive emitted to the draw target, mirroring the path commands the
draw target accepts. -/
inductive PathOp where
  | moveTo (p : Vector2)
  | quadraticCurveTo (c e : Vector2)
  | bezierCurveTo (c1 c2 e : Vector2)

/-- The closed tagged-variant type of polynomial segments: a quadratic
Bezier with three control points or a cubic Bezier with four.  This models
the abstract class `PolynomialSegment` together with its two concrete
subclasses. -/
inductive PolynomialSegment where
  | quad (p0 p1 p2 : Vector2)
  | cubic (p0 p1 p2 p3 : Vector2)

namespace PolynomialSegment

/-- The segment's control points, in order. -/
def points : PolynomialSegment → List Vector2
  | quad p0 p1 p2 => [p0, p1, p2]
  | cubic p0 p1 p2 p3 => [p0, p1, p2, p3]

/-- The segment's `Polynomial2D`, built from its control points. -/
def curve : PolynomialSegment → Polynomial2D
  | quad p0 p1 p2 => quadBezierPolynomial p0 p1 p2
  | cubic p0 p1 p2 p3 => cubicBezierPolynomial p0 p1 p2 p3

/-- Modelled from the spec: exact geometric subdivision at parameter `t`
via the degree-appropriate de Casteljau construction, producing the two
successor segments (the variant files are not among the sources). -/
def split : PolynomialSegment → ℝ → PolynomialSegment × PolynomialSegment
  | quad p0 p1 p2, t =>
    let a := Vector2.lerp p0 p1 t
    let b := Vector2.lerp p1 p2 t
    let p := Vector2.lerp a b t
    (quad p0 a p, quad p b p2)
  | cubic p0 p1 p2 p3, t =>
    let a := Vector2.lerp p0 p1 t
    let b := Vector2.lerp p1 p2 t
    let c := Vector2.lerp p2 p3 t
    let d := Vector2.lerp a b t
    let e := Vector2.lerp b c t
    let p := Vector2.lerp d e t
    (cubic p0 a d p, cubic p e c p3)

/-- The sampler attached to the segment: it samples the segment's own curve
at resolution `N`.  The spec treats the resolution as a tunable parameter,
so it is threaded explicitly. -/
noncomputable def sampler (s : PolynomialSegment) (N : ℕ) : UniformPolynomialCurveSampler :=
  ⟨s.curve, N⟩

/-- Modelled from the spec: the segment's precomputed arc length, computed
once by sampling (the same uniform sampling the sampler performs). -/
noncomputable def length (s : PolynomialSegment) (N : ℕ) : ℝ :=
  (s.sampler N).totalLength

/-- The `arcLength` accessor simply returns the stored length. -/
noncomputable def arcLength (s : PolynomialSegment) (N : ℕ) : ℝ :=
  s.length N

/-- The normalized derivative of the curve at parameter `t`. -/
noncomputable def tangent (s : PolynomialSegment) (t : ℝ) : Vector2 :=
  (s.curve.evalDerivative t).normalized

/-- Exact evaluation at parameter `t`: position from the polynomial,
tangent from the normalized derivative. -/
noncomputable def eval (s : PolynomialSegment) (t : ℝ) : CurvePoint :=
  ⟨s.curve.eval t, s.tangent t⟩

/-- Distance-based point query: convert the fraction to an absolute
distance and delegate to the sampler's `pointAtDistance`. -/
noncomputable def getPoint (s : PolynomialSegment) (N : ℕ) (distance : ℝ) : CurvePoint :=
  let closestPoint := (s.sampler N).pointAtDistance (s.arcLength N * distance)
  ⟨closestPoint.position, closestPoint.tangent⟩

/-- The geometry the segment emits for itself: a single curve primitive
built from its own control points. -/
def doDraw : PolynomialSegment → List PathOp
  | quad _ p1 p2 => [PathOp.quadraticCurveTo p1 p2]
  | cubic _ p1 p2 p3 => [PathOp.bezierCurveTo p1 p2 p3]

open Classical in
/-- The ranged-drawing algorithm, transliterated from the source: when the
range is not the full curve, convert the distance fractions to parameters,
split off the back half at the start parameter, split that at the rescaled
end parameter keeping the front half, and emit the resulting sub-curve;
return the boundary positions and tangents. -/
noncomputable def draw (s : PolynomialSegment) (N : ℕ) (start end_ : ℝ) (move : Bool) :
    List PathOp × (Vector2 × Vector2 × Vector2 × Vector2) :=
  if start ≠ 0 ∨ end_ ≠ 1 then
    let startDistance := s.length N * start
    let endDistance := s.length N * end_
    let startT := (s.sampler N).distanceToT startDistance
    let endT0 := (s.sampler N).distanceToT endDistance
    let endT := (endT0 - startT) / (1 - startT)
    let startSegment := (s.split startT).2
    let subCurve := (startSegment.split endT).1
    let pts := subCurve.points
    ((if move then [PathOp.moveTo pts.head!] else []) ++ subCurve.doDraw,
     (pts.head!, s.tangent startT, pts.getLast!, s.tangent endT))
  else
    let pts := s.points
    ((if move then [PathOp.moveTo pts.head!] else []) ++ s.doDraw,
     (pts.head!, s.tangent start, pts.getLast!, s.tangent end_))

end PolynomialSegment

/-- Modelled from the spec: the default sampler resolution.  The spec fixes
a single tunable resolution "large enough to bound interpolation error";
the concrete default is not among the sources. -/
def samplerResolution : ℕ := 20

/-- The field layout of a constructed `PolynomialSegment` base object:
curve, stored length, and the sampler slot.  The slot is option-typed so
that the claim that no sampler is attached at construction is statable. -/
structure PolynomialSegmentState where
  curve : Polynomial2D
  length : ℝ
  pointSampler : Option UniformPolynomialCurveSampler

/-- The base-class constructor, transliterated from the source: it stores
the curve and length and immediately assigns a newly constructed
`UniformPolynomialCurveSampler` for this segment to the sampler slot. -/
def constructSegment (curve : Polynomial2D) (length : ℝ) : PolynomialSegmentState :=
  ⟨curve, length, some ⟨curve, samplerResolution⟩⟩

namespace UniformPolynomialCurveSampler

lemma chord_nonneg (sp : UniformPolynomialCurveSampler) (i : ℕ) : 0 ≤ sp.chord i :=
  Real.sqrt_nonneg _

lemma cumDist_nonneg (sp : UniformPolynomialCurveSampler) (i : ℕ) : 0 ≤ sp.cumDist i :=
  Finset.sum_nonneg fun j _ => sp.chord_nonneg j

lemma cumDist_mono (sp : UniformPolynomialCurveSampler) {i j : ℕ} (h : i ≤ j) :
    sp.cumDist i ≤ sp.cumDist j :=
  Finset.sum_le_sum_of_subset_of_nonneg (Finset.range_subset.mpr h)
    (fun k _ _ => sp.chord_nonneg k)

lemma cumDist_succ (sp : UniformPolynomialCurveSampler) (i : ℕ) :
    sp.cumDist (i + 1) = sp.cumDist i + sp.chord i :=
  Finset.sum_range_succ _ _

lemma totalLength_nonneg (sp : UniformPolynomialCurveSampler) : 0 ≤ sp.totalLength :=
  sp.cumDist_nonneg _

lemma clampDistance_of_nonpos (sp : UniformPolynomialCurveSampler) {d : ℝ} (h : d ≤ 0) :
    sp.clampDistance d = 0 := by
  unfold clampDistance
  rw [min_eq_left (h.trans sp.totalLength_nonneg), max_eq_left h]

lemma clampDistance_zero (sp : UniformPolynomialCurveSampler) : sp.clampDistance 0 = 0 :=
  sp.clampDistance_of_nonpos le_rfl

lemma clampDistance_of_total_le (sp : UniformPolynomialCurveSampler) {d : ℝ}
    (h : sp.totalLength ≤ d) : sp.clampDistance d = sp.totalLength := by
  unfold clampDistance
  rw [min_eq_right h, max_eq_right sp.totalLength_nonneg]

lemma clampDistance_total (sp : UniformPolynomialCurveSampler) :
    sp.clampDistance sp.totalLength = sp.totalLength :=
  sp.clampDistance_of_total_le le_rfl

lemma pointAtDistance_congr (sp : UniformPolynomialCurveSampler) {d1 d2 : ℝ}
    (h : sp.clampDistance d1 = sp.clampDistance d2) :
    sp.pointAtDistance d1 = sp.pointAtDistance d2 := by
  unfold pointAtDistance
  rw [h]

end UniformPolynomialCurveSampler

namespace PolynomialSegment

lemma length_nonneg (s : PolynomialSegment) (N : ℕ) : 0 ≤ s.length N :=
  (s.sampler N).totalLength_nonneg

lemma length_eq_totalLength (s : PolynomialSegment) (N : ℕ) :
    s.length N = (s.sampler N).totalLength := rfl

end PolynomialSegment

/-- C9: for every segment (at every resolution), the `arcLength` accessor
returns exactly the stored `length`. -/
theorem claim_C9_arcLength_eq_length :
    ∀ (s : PolynomialSegment) (N : ℕ), s.arcLength N = s.length N :=
  fun _ _ => rfl

/-- C10: for every segment and parameter `t`, `eval t` is exactly the
record of the polynomial position and the normalized derivative, and its
tangent component always agrees with the `tangent` operation. -/
theorem claim_C10_eval_components :
    ∀ (s : PolynomialSegment) (t : ℝ),
      s.eval t = ⟨s.curve.eval t, (s.curve.evalDerivative t).normalized⟩ ∧
        (s.eval t).tangent = s.tangent t :=
  fun _ _ => ⟨rfl, rfl⟩

/-- C2: for every segment, `draw` over the full range 0..1 performs no
splitting and emits exactly the segment's own untrimmed geometry (a move to
its first control point followed by its single curve primitive), returning
the endpoints and the tangents at parameters 0 and 1. -/
theorem claim_C2_full_range_draw :
    ∀ (s : PolynomialSegment) (N : ℕ) (move : Bool),
      s.draw N 0 1 move =
        ((if move then [PathOp.moveTo s.points.head!] else []) ++ s.doDraw,
         (s.points.head!, s.tangent 0, s.points.getLast!, s.tangent 1)) := by
  intro s N move
  unfold PolynomialSegment.draw
  rw [if_neg (by push_neg; exact ⟨rfl, rfl⟩)]

/-- C1: for every segment and every range other than the full one, `draw`
converts the start and end distance fractions to parameters via the
sampler's `distanceToT`, splits the curve at the start parameter keeping
the back half, splits that at the rescaled end parameter keeping the front
half, and emits exactly that sub-curve's geometry to the draw target. -/
theorem claim_C1_ranged_draw :
    ∀ (s : PolynomialSegment) (N : ℕ) (start end_ : ℝ) (move : Bool),
      ¬(start = 0 ∧ end_ = 1) →
      (s.draw N start end_ move).1 =
        (if move then
          [PathOp.moveTo
            ((((s.split ((s.sampler N).distanceToT (start * s.length N))).2).split
              (((s.sampler N).distanceToT (end_ * s.length N) -
                  (s.sampler N).distanceToT (start * s.length N)) /
                (1 - (s.sampler N).distanceToT (start * s.length N)))).1).points.head!]
        else []) ++
          ((((s.split ((s.sampler N).distanceToT (start * s.length N))).2).split
            (((s.sampler N).distanceToT (end_ * s.length N) -
                (s.sampler N).distanceToT (start * s.length N)) /
              (1 - (s.sampler N).distanceToT (start * s.length N)))).1).doDraw := by
  intro s N start end_ move h
  unfold PolynomialSegment.draw
  rw [if_pos (by tauto), mul_comm start, mul_comm end_]

/-- A concrete straight-line quadratic segment used as a witness input. -/
noncomputable def segLine : PolynomialSegment :=
  PolynomialSegment.quad ⟨0, 0⟩ ⟨1, 0⟩ ⟨2, 0⟩

/-- Witness for C1 at the segment `segLine`, range 1/2..1. -/
theorem claim_C1_witness :
    (segLine.draw 2 (1 / 2) 1 true).1 =
      (if true then
        [PathOp.moveTo
          ((((segLine.split ((segLine.sampler 2).distanceToT (1 / 2 * segLine.length 2))).2).split
            (((segLine.sampler 2).distanceToT (1 * segLine.length 2) -
                (segLine.sampler 2).distanceToT (1 / 2 * segLine.length 2)) /
              (1 - (segLine.sampler 2).distanceToT (1 / 2 * segLine.length 2)))).1).points.head!]
      else []) ++
        ((((segLine.split ((segLine.sampler 2).distanceToT (1 / 2 * segLine.length 2))).2).split
          (((segLine.sampler 2).distanceToT (1 * segLine.length 2) -
              (segLine.sampler 2).distanceToT (1 / 2 * segLine.length 2)) /
            (1 - (segLine.sampler 2).distanceToT (1 / 2 * segLine.length 2)))).1).doDraw :=
  claim_C1_ranged_draw segLine 2 (1 / 2) 1 true (by norm_num)

/-- C5: for every segment and fraction, `getPoint` multiplies the fraction
by the stored arc length and returns the sampler's `pointAtDistance` result
for that absolute distance; fractions below 0 or above 1 clamp to the
respective endpoint query. -/
theorem claim_C5_getPoint_delegates :
    ∀ (s : PolynomialSegment) (N : ℕ) (f : ℝ),
      s.getPoint N f = (s.sampler N).pointAtDistance (s.arcLength N * f) ∧
        (f < 0 → s.getPoint N f = s.getPoint N 0) ∧
        (1 < f → s.getPoint N f = s.getPoint N 1) := by
  intro s N f
  refine ⟨rfl, fun hf => ?_, fun hf => ?_⟩
  · show (s.sampler N).pointAtDistance (s.arcLength N * f) =
      (s.sampler N).pointAtDistance (s.arcLength N * 0)
    apply UniformPolynomialCurveSampler.pointAtDistance_congr
    rw [mul_zero, UniformPolynomialCurveSampler.clampDistance_zero,
      UniformPolynomialCurveSampler.clampDistance_of_nonpos]
    exact mul_nonpos_of_nonneg_of_nonpos (s.length_nonneg N) hf.le
  · show (s.sampler N).pointAtDistance (s.arcLength N * f) =
      (s.sampler N).pointAtDistance (s.arcLength N * 1)
    apply UniformPolynomialCurveSampler.pointAtDistance_congr
    rw [mul_one]
    have hlen : s.arcLength N = (s.sampler N).totalLength := rfl
    rw [hlen, UniformPolynomialCurveSampler.clampDistance_total,
      UniformPolynomialCurveSampler.clampDistance_of_total_le]
    calc (s.sampler N).totalLength
        = (s.sampler N).totalLength * 1 := (mul_one _).symm
      _ ≤ (s.sampler N).totalLength * f :=
          mul_le_mul_of_nonneg_left hf.le ((s.sampler N).totalLength_nonneg)

/-- Witness for C5: a fraction above 1 clamps to the end of the curve. -/
theorem claim_C5_witness : segLine.getPoint 2 2 = segLine.getPoint 2 1 :=
  (claim_C5_getPoint_delegates segLine 2 2).2.2 (by norm_num)

/-- C8 counterexample: already at construction the segment's sampler slot
holds a fully constructed `UniformPolynomialCurveSampler`, contradicting
the claim that constructing a segment does not build its sampler. -/
theorem claim_C8_counterexample :
    (constructSegment (quadBezierPolynomial ⟨0, 0⟩ ⟨1, 0⟩ ⟨2, 0⟩) 2).pointSampler ≠ none ∧
      (constructSegment (quadBezierPolynomial ⟨0, 0⟩ ⟨1, 0⟩ ⟨2, 0⟩) 2).pointSampler =
        some ⟨quadBezierPolynomial ⟨0, 0⟩ ⟨1, 0⟩ ⟨2, 0⟩, samplerResolution⟩ :=
  ⟨Option.some_ne_none _, rfl⟩

/-- C8 amended: the constructor eagerly builds and attaches the sampler for
the segment's own curve; the attached sampler is fully determined by the
construction arguments, hence fixed for the segment's lifetime. -/
theorem claim_C8_sampler_eagerly_attached :
    ∀ (curve : Polynomial2D) (len : ℝ),
      (constructSegment curve len).pointSampler = some ⟨curve, samplerResolution⟩ :=
  fun _ _ => rfl

attribute [ext] Vector2

namespace Vector2

lemma lerp_zero (a b : Vector2) : lerp a b 0 = a := by
  ext <;> simp [lerp]

lemma lerp_one (a b : Vector2) : lerp a b 1 = b := by
  ext <;> simp [lerp]

lemma eq_of_dist_eq_zero {a b : Vector2} (h : dist a b = 0) : a = b := by
  unfold dist magnitude sub at h
  have hsum : (b.x - a.x) ^ 2 + (b.y - a.y) ^ 2 ≤ 0 := Real.sqrt_eq_zero'.mp h
  have hx : b.x - a.x = 0 := by nlinarith [sq_nonneg (b.x - a.x), sq_nonneg (b.y - a.y)]
  have hy : b.y - a.y = 0 := by nlinarith [sq_nonneg (b.x - a.x), sq_nonneg (b.y - a.y)]
  ext
  · linarith
  · linarith

end Vector2

namespace UniformPolynomialCurveSampler

lemma cumDist_zero (sp : UniformPolynomialCurveSampler) : sp.cumDist 0 = 0 :=
  Finset.sum_range_zero _

lemma sampleT_zero (sp : UniformPolynomialCurveSampler) : sp.sampleT 0 = 0 := by
  simp [sampleT]

lemma sampleT_mono (sp : UniformPolynomialCurveSampler) (hN : 2 ≤ sp.samples) {i j : ℕ}
    (h : i ≤ j) : sp.sampleT i ≤ sp.sampleT j := by
  unfold sampleT
  have hden : (0 : ℝ) < (sp.samples : ℝ) - 1 := by
    have : (2 : ℝ) ≤ (sp.samples : ℝ) := by exact_mod_cast hN
    linarith
  exact (div_le_div_iff_of_pos_right hden).mpr (by exact_mod_cast h)

lemma sampleT_last (sp : UniformPolynomialCurveSampler) (hN : 2 ≤ sp.samples) :
    sp.sampleT (sp.samples - 1) = 1 := by
  unfold sampleT
  have h1 : 1 ≤ sp.samples := by omega
  have hcast : ((sp.samples - 1 : ℕ) : ℝ) = (sp.samples : ℝ) - 1 := by
    push_cast [h1]
    ring
  rw [hcast]
  have hden : (sp.samples : ℝ) - 1 ≠ 0 := by
    have : (2 : ℝ) ≤ (sp.samples : ℝ) := by exact_mod_cast hN
    linarith
  exact div_self hden

lemma samplePos_congr_of_chord_zero (sp : UniformPolynomialCurveSampler) {j : ℕ}
    (h : sp.chord j = 0) : sp.samplePos j = sp.samplePos (j + 1) :=
  Vector2.eq_of_dist_eq_zero h

lemma samplePos_congr_of_cumDist_eq (sp : UniformPolynomialCurveSampler) {i j : ℕ}
    (hij : i ≤ j) (h : sp.cumDist i = sp.cumDist j) : sp.samplePos i = sp.samplePos j := by
  induction j, hij using Nat.le_induction with
  | base => rfl
  | succ j hij ih =>
    have h1 : sp.cumDist i ≤ sp.cumDist j := sp.cumDist_mono hij
    rw [sp.cumDist_succ j] at h
    have hch0 : 0 ≤ sp.chord j := sp.chord_nonneg j
    have hchord : sp.chord j = 0 := by linarith
    have hcum : sp.cumDist i = sp.cumDist j := by linarith
    rw [ih hcum]
    exact sp.samplePos_congr_of_chord_zero hchord

lemma bracket_le (sp : UniformPolynomialCurveSampler) (d : ℝ) :
    sp.bracket d ≤ sp.samples - 2 := by
  unfold bracket
  exact Nat.find_min' _ (Or.inr le_rfl)

open Classical in
lemma bracket_spec (sp : UniformPolynomialCurveSampler) (d : ℝ) :
    d ≤ sp.cumDist (sp.bracket d + 1) ∨ sp.samples - 2 ≤ sp.bracket d := by
  unfold bracket
  exact Nat.find_spec (show ∃ i, d ≤ sp.cumDist (i + 1) ∨ sp.samples - 2 ≤ i from
    ⟨sp.samples - 2, Or.inr le_rfl⟩)

lemma bracket_min (sp : UniformPolynomialCurveSampler) (d : ℝ) {j : ℕ}
    (hj : j < sp.bracket d) : sp.cumDist (j + 1) < d ∧ j < sp.samples - 2 := by
  unfold bracket at hj
  have := Nat.find_min _ hj
  push_neg at this
  exact ⟨this.1, this.2⟩

lemma bracket_mono (sp : UniformPolynomialCurveSampler) {d1 d2 : ℝ} (h : d1 ≤ d2) :
    sp.bracket d1 ≤ sp.bracket d2 := by
  unfold bracket
  exact Nat.find_mono fun n hn => hn.imp (fun hle => h.trans hle) id

lemma bracket_zero (sp : UniformPolynomialCurveSampler) : sp.bracket 0 = 0 := by
  unfold bracket
  exact (Nat.find_eq_zero _).mpr (Or.inl (sp.cumDist_nonneg 1))

lemma cumDist_bracket_le (sp : UniformPolynomialCurveSampler) {d : ℝ} (hd : 0 ≤ d) :
    sp.cumDist (sp.bracket d) ≤ d := by
  rcases Nat.eq_zero_or_pos (sp.bracket d) with h | h
  · rw [h, sp.cumDist_zero]
    exact hd
  · obtain ⟨j, hj⟩ : ∃ j, sp.bracket d = j + 1 :=
      ⟨sp.bracket d - 1, (Nat.succ_pred_eq_of_pos h).symm⟩
    rw [hj]
    exact (sp.bracket_min d (by omega)).1.le

lemma le_cumDist_bracket_succ (sp : UniformPolynomialCurveSampler) {d : ℝ}
    (hd : d ≤ sp.totalLength) : d ≤ sp.cumDist (sp.bracket d + 1) := by
  rcases sp.bracket_spec d with h | h
  · exact h
  · have heq : sp.bracket d = sp.samples - 2 := le_antisymm (sp.bracket_le d) h
    have hle : sp.samples - 1 ≤ sp.bracket d + 1 := by omega
    exact hd.trans (sp.cumDist_mono hle)

lemma clampDistance_mono (sp : UniformPolynomialCurveSampler) {d1 d2 : ℝ} (h : d1 ≤ d2) :
    sp.clampDistance d1 ≤ sp.clampDistance d2 :=
  max_le_max le_rfl (min_le_min h le_rfl)

lemma clampDistance_nonneg (sp : UniformPolynomialCurveSampler) (d : ℝ) :
    0 ≤ sp.clampDistance d :=
  le_max_left _ _

lemma clampDistance_le_total (sp : UniformPolynomialCurveSampler) (d : ℝ) :
    sp.clampDistance d ≤ sp.totalLength :=
  max_le sp.totalLength_nonneg (min_le_right _ _)

/-- The interpolation step of `distanceToT`, applied to an
already-clamped distance. -/
noncomputable def interpT (sp : UniformPolynomialCurveSampler) (e : ℝ) : ℝ :=
  sp.sampleT (sp.bracket e) +
    (e - sp.cumDist (sp.bracket e)) /
      (sp.cumDist (sp.bracket e + 1) - sp.cumDist (sp.bracket e)) *
      (sp.sampleT (sp.bracket e + 1) - sp.sampleT (sp.bracket e))

lemma distanceToT_eq_interpT (sp : UniformPolynomialCurveSampler) (d : ℝ) :
    sp.distanceToT d = sp.interpT (sp.clampDistance d) := rfl

lemma interpT_le (sp : UniformPolynomialCurveSampler) (hN : 2 ≤ sp.samples) {e : ℝ}
    (he : e ≤ sp.cumDist (sp.bracket e + 1)) :
    sp.interpT e ≤ sp.sampleT (sp.bracket e + 1) := by
  unfold interpT
  set i := sp.bracket e with hi
  have hD : 0 ≤ sp.cumDist (i + 1) - sp.cumDist i :=
    sub_nonneg.mpr (sp.cumDist_mono (Nat.le_succ i))
  have hT : 0 ≤ sp.sampleT (i + 1) - sp.sampleT i :=
    sub_nonneg.mpr (sp.sampleT_mono hN (Nat.le_succ i))
  rcases eq_or_lt_of_le hD with hD0 | hDpos
  · rw [← hD0, div_zero, zero_mul, add_zero]
    exact sp.sampleT_mono hN (Nat.le_succ i)
  · have hr : (e - sp.cumDist i) / (sp.cumDist (i + 1) - sp.cumDist i) ≤ 1 := by
      rw [div_le_one hDpos]
      linarith
    have := mul_le_of_le_one_left hT hr
    linarith

lemma le_interpT (sp : UniformPolynomialCurveSampler) (hN : 2 ≤ sp.samples) {e : ℝ}
    (h0 : 0 ≤ e) : sp.sampleT (sp.bracket e) ≤ sp.interpT e := by
  unfold interpT
  set i := sp.bracket e with hi
  have hD : 0 ≤ sp.cumDist (i + 1) - sp.cumDist i :=
    sub_nonneg.mpr (sp.cumDist_mono (Nat.le_succ i))
  have hT : 0 ≤ sp.sampleT (i + 1) - sp.sampleT i :=
    sub_nonneg.mpr (sp.sampleT_mono hN (Nat.le_succ i))
  have hnum : 0 ≤ e - sp.cumDist i := sub_nonneg.mpr (sp.cumDist_bracket_le h0)
  have : 0 ≤ (e - sp.cumDist i) / (sp.cumDist (i + 1) - sp.cumDist i) *
      (sp.sampleT (i + 1) - sp.sampleT i) :=
    mul_nonneg (div_nonneg hnum hD) hT
  linarith

lemma interpT_mono (sp : UniformPolynomialCurveSampler) (hN : 2 ≤ sp.samples) {e1 e2 : ℝ}
    (h1 : 0 ≤ e1) (h12 : e1 ≤ e2) (h2 : e2 ≤ sp.totalLength) :
    sp.interpT e1 ≤ sp.interpT e2 := by
  rcases eq_or_lt_of_le (sp.bracket_mono h12) with hb | hb
  · unfold interpT
    rw [← hb]
    set i := sp.bracket e1 with hi
    have hD : 0 ≤ sp.cumDist (i + 1) - sp.cumDist i :=
      sub_nonneg.mpr (sp.cumDist_mono (Nat.le_succ i))
    have hT : 0 ≤ sp.sampleT (i + 1) - sp.sampleT i :=
      sub_nonneg.mpr (sp.sampleT_mono hN (Nat.le_succ i))
    rcases eq_or_lt_of_le hD with hD0 | hDpos
    · rw [← hD0, div_zero, zero_mul, add_zero, div_zero, zero_mul, add_zero]
    · have hr : (e1 - sp.cumDist i) / (sp.cumDist (i + 1) - sp.cumDist i) ≤
          (e2 - sp.cumDist i) / (sp.cumDist (i + 1) - sp.cumDist i) :=
        (div_le_div_iff_of_pos_right hDpos).mpr (by linarith)
      have := mul_le_mul_of_nonneg_right hr hT
      linarith
  · have hstep1 : sp.interpT e1 ≤ sp.sampleT (sp.bracket e1 + 1) :=
      sp.interpT_le hN (sp.le_cumDist_bracket_succ (h12.trans h2))
    have hstep2 : sp.sampleT (sp.bracket e1 + 1) ≤ sp.sampleT (sp.bracket e2) :=
      sp.sampleT_mono hN (by omega)
    have hstep3 : sp.sampleT (sp.bracket e2) ≤ sp.interpT e2 :=
      sp.le_interpT hN (h1.trans h12)
    linarith

lemma distanceToT_mono (sp : UniformPolynomialCurveSampler) (hN : 2 ≤ sp.samples)
    {d1 d2 : ℝ} (h : d1 ≤ d2) : sp.distanceToT d1 ≤ sp.distanceToT d2 := by
  rw [sp.distanceToT_eq_interpT d1, sp.distanceToT_eq_interpT d2]
  exact sp.interpT_mono hN (sp.clampDistance_nonneg d1) (sp.clampDistance_mono h)
    (sp.clampDistance_le_total d2)

end UniformPolynomialCurveSampler

/-- C6: for every segment's sampler and all distances d1 < d2 in the
curve's distance range, `distanceToT` is monotonically non-decreasing. -/
theorem claim_C6_distanceToT_monotone :
    ∀ (s : PolynomialSegment) (N : ℕ) (d1 d2 : ℝ),
      0 ≤ d1 → d1 < d2 → d2 ≤ s.length N →
      (s.sampler N).distanceToT d1 ≤ (s.sampler N).distanceToT d2 := by
  intro s N d1 d2 h0 h12 h2
  by_cases hN : 2 ≤ N
  · exact (s.sampler N).distanceToT_mono hN h12.le
  · exfalso
    have hlen : s.length N = 0 := by
      show (s.sampler N).totalLength = 0
      unfold UniformPolynomialCurveSampler.totalLength
      have : (s.sampler N).samples - 1 = 0 := by
        show N - 1 = 0
        omega
      rw [this]
      exact (s.sampler N).cumDist_zero
    rw [hlen] at h2
    linarith

namespace UniformPolynomialCurveSampler

lemma samplePos_zero (sp : UniformPolynomialCurveSampler) :
    sp.samplePos 0 = sp.curve.eval 0 := by
  unfold samplePos
  rw [sp.sampleT_zero]

lemma samplePos_last (sp : UniformPolynomialCurveSampler) (hN : 2 ≤ sp.samples) :
    sp.samplePos (sp.samples - 1) = sp.curve.eval 1 := by
  unfold samplePos
  rw [sp.sampleT_last hN]

lemma pointAtDistance_zero (sp : UniformPolynomialCurveSampler) :
    sp.pointAtDistance 0 = ⟨sp.samplePos 0, sp.sampleTangent 0⟩ := by
  simp only [pointAtDistance, clampDistance_zero, bracket_zero, cumDist_zero, sub_zero,
    sub_self, zero_div, Vector2.lerp_zero]

lemma pointAtDistance_total_position (sp : UniformPolynomialCurveSampler)
    (hN : 2 ≤ sp.samples) :
    (sp.pointAtDistance sp.totalLength).position = sp.samplePos (sp.samples - 1) := by
  have hcl : sp.clampDistance sp.totalLength = sp.totalLength := sp.clampDistance_total
  simp only [pointAtDistance, hcl]
  set i := sp.bracket sp.totalLength with hi
  have hle : i ≤ sp.samples - 2 := sp.bracket_le _
  have hi1 : i + 1 ≤ sp.samples - 1 := by omega
  have hub : sp.totalLength ≤ sp.cumDist (i + 1) := sp.le_cumDist_bracket_succ le_rfl
  have hlb : sp.cumDist (i + 1) ≤ sp.totalLength := sp.cumDist_mono hi1
  have hcum : sp.cumDist (i + 1) = sp.totalLength := le_antisymm hlb hub
  have hpos : sp.samplePos (i + 1) = sp.samplePos (sp.samples - 1) :=
    sp.samplePos_congr_of_cumDist_eq hi1 (hcum.trans rfl)
  rcases eq_or_lt_of_le (sp.cumDist_mono (Nat.le_succ i)) with hD | hD
  · have hr : (sp.totalLength - sp.cumDist i) / (sp.cumDist (i + 1) - sp.cumDist i) = 0 := by
      rw [← hD, sub_self, div_zero]
    rw [hr, Vector2.lerp_zero]
    have hcut : sp.cumDist i = sp.cumDist (sp.samples - 1) := by
      rw [hD, hcum]
      rfl
    exact sp.samplePos_congr_of_cumDist_eq (by omega) hcut
  · have hne : sp.totalLength - sp.cumDist i ≠ 0 := by
      have : sp.cumDist i < sp.totalLength := by rw [← hcum]; exact hD
      linarith
    have hr : (sp.totalLength - sp.cumDist i) / (sp.cumDist (i + 1) - sp.cumDist i) = 1 := by
      rw [hcum]
      exact div_self hne
    rw [hr, Vector2.lerp_one]
    exact hpos

end UniformPolynomialCurveSampler

/-- C4: for every control-point configuration (quadratic or cubic, at any
sampler resolution of at least two samples), the distance-based endpoint
queries agree exactly with the parametric endpoint evaluations. -/
theorem claim_C4_endpoint_exactness :
    ∀ (s : PolynomialSegment) (N : ℕ), 2 ≤ N →
      (s.getPoint N 0).position = (s.eval 0).position ∧
        (s.getPoint N 1).position = (s.eval 1).position := by
  intro s N hN
  constructor
  · show ((s.sampler N).pointAtDistance (s.arcLength N * 0)).position = _
    rw [mul_zero, (s.sampler N).pointAtDistance_zero]
    show (s.sampler N).samplePos 0 = _
    rw [(s.sampler N).samplePos_zero]
    rfl
  · show ((s.sampler N).pointAtDistance (s.arcLength N * 1)).position = _
    rw [mul_one]
    have harc : s.arcLength N = (s.sampler N).totalLength := rfl
    rw [harc, (s.sampler N).pointAtDistance_total_position hN,
      (s.sampler N).samplePos_last hN]
    rfl

/-- Witness for C4 at the segment `segLine` with resolution 2. -/
theorem claim_C4_witness :
    (segLine.getPoint 2 0).position = (segLine.eval 0).position ∧
      (segLine.getPoint 2 1).position = (segLine.eval 1).position :=
  claim_C4_endpoint_exactness segLine 2 (by norm_num)

lemma sqrt_eval {a b : ℝ} (hb : 0 ≤ b) (h : b ^ 2 = a) : Real.sqrt a = b := by
  rw [← h, Real.sqrt_sq hb]

lemma segLine_length : segLine.length 2 = 2 := by
  show (segLine.sampler 2).cumDist (2 - 1) = 2
  norm_num [UniformPolynomialCurveSampler.cumDist, Finset.sum_range_one,
    UniformPolynomialCurveSampler.chord, UniformPolynomialCurveSampler.samplePos,
    UniformPolynomialCurveSampler.sampleT, PolynomialSegment.sampler, segLine,
    PolynomialSegment.curve, quadBezierPolynomial, Polynomial2D.eval,
    Vector2.dist, Vector2.sub, Vector2.magnitude]

/-- Witness for C6 at the segment `segLine` with resolution 2. -/
theorem claim_C6_witness :
    (segLine.sampler 2).distanceToT 0 ≤ (segLine.sampler 2).distanceToT 1 :=
  claim_C6_distanceToT_monotone segLine 2 0 1 le_rfl (by norm_num)
    (by rw [segLine_length]; norm_num)

namespace UniformPolynomialCurveSampler

lemma clampDistance_of_mem (sp : UniformPolynomialCurveSampler) {d : ℝ} (h0 : 0 ≤ d)
    (hT : d ≤ sp.totalLength) : sp.clampDistance d = d := by
  unfold clampDistance
  rw [min_eq_left hT, max_eq_right h0]

end UniformPolynomialCurveSampler

/-- A concrete bending quadratic segment used to exhibit the end-tangent
defect of `draw`. -/
noncomputable def segArc : PolynomialSegment :=
  PolynomialSegment.quad ⟨0, 0⟩ ⟨2, 1⟩ ⟨4, 0⟩

lemma segArc_cumDist_one : (segArc.sampler 2).cumDist 1 = 4 := by
  norm_num [UniformPolynomialCurveSampler.cumDist, Finset.sum_range_one,
    UniformPolynomialCurveSampler.chord, UniformPolynomialCurveSampler.samplePos,
    UniformPolynomialCurveSampler.sampleT, PolynomialSegment.sampler, segArc,
    PolynomialSegment.curve, quadBezierPolynomial, Polynomial2D.eval,
    Vector2.dist, Vector2.sub, Vector2.magnitude]
  rw [show (16 : ℝ) = 4 ^ 2 by norm_num, Real.sqrt_sq (by norm_num)]

lemma segArc_length : segArc.length 2 = 4 := segArc_cumDist_one

lemma segArc_bracket (d : ℝ) : (segArc.sampler 2).bracket d = 0 :=
  Nat.le_zero.mp ((segArc.sampler 2).bracket_le d)

lemma segArc_dT {d : ℝ} (h0 : 0 ≤ d) (h4 : d ≤ 4) :
    (segArc.sampler 2).distanceToT d = d / 4 := by
  have htot : (segArc.sampler 2).totalLength = 4 := segArc_cumDist_one
  have hclamp : (segArc.sampler 2).clampDistance d = d :=
    (segArc.sampler 2).clampDistance_of_mem h0 (by rw [htot]; exact h4)
  simp only [UniformPolynomialCurveSampler.distanceToT, hclamp, segArc_bracket,
    UniformPolynomialCurveSampler.cumDist_zero, UniformPolynomialCurveSampler.sampleT_zero,
    zero_add, sub_zero, segArc_cumDist_one]
  norm_num [UniformPolynomialCurveSampler.sampleT, PolynomialSegment.sampler]

lemma segArc_dT_quarter :
    (segArc.sampler 2).distanceToT (segArc.length 2 * (1 / 4)) = 1 / 4 := by
  have h : segArc.length 2 * (1 / 4) = 1 := by rw [segArc_length]; norm_num
  rw [h, segArc_dT (by norm_num) (by norm_num)]

lemma segArc_dT_half :
    (segArc.sampler 2).distanceToT (segArc.length 2 * (1 / 2)) = 1 / 2 := by
  have h : segArc.length 2 * (1 / 2) = 2 := by rw [segArc_length]; norm_num
  rw [h, segArc_dT (by norm_num) (by norm_num)]
  norm_num

lemma segArc_draw_end_tangent :
    (segArc.draw 2 (1 / 4) (1 / 2) true).2.2.2.2 = segArc.tangent (1 / 3) := by
  unfold PolynomialSegment.draw
  rw [if_pos (by norm_num : (1 / 4 : ℝ) ≠ 0 ∨ (1 / 2 : ℝ) ≠ 1)]
  simp only [segArc_dT_quarter, segArc_dT_half]
  norm_num

/-- C3: counter-evidence for the partial-range clause.  On the segment
`segArc` drawn over the distance range 1/4..1/2, the returned end tangent
is the original curve's tangent at the rescaled split parameter 1/3, not at
the parameter 1/2 that `distanceToT` assigns to the end distance; the two
tangents differ. -/
theorem claim_C3_end_tangent_defect :
    (segArc.draw 2 (1 / 4) (1 / 2) true).2.2.2.2 ≠
      segArc.tangent ((segArc.sampler 2).distanceToT (segArc.length 2 * (1 / 2))) := by
  rw [segArc_draw_end_tangent, segArc_dT_half]
  intro heq
  have hy := congrArg Vector2.y heq
  norm_num [PolynomialSegment.tangent, Vector2.normalized, Vector2.magnitude,
    PolynomialSegment.curve, segArc, quadBezierPolynomial, Polynomial2D.evalDerivative] at hy

/-- A degenerate quadratic segment with all control points coincident. -/
noncomputable def segDeg : PolynomialSegment :=
  PolynomialSegment.quad ⟨0, 0⟩ ⟨0, 0⟩ ⟨0, 0⟩

lemma segDeg_chord (j : ℕ) : (segDeg.sampler 2).chord j = 0 := by
  norm_num [UniformPolynomialCurveSampler.chord, UniformPolynomialCurveSampler.samplePos,
    UniformPolynomialCurveSampler.sampleT, PolynomialSegment.sampler, segDeg,
    PolynomialSegment.curve, quadBezierPolynomial, Polynomial2D.eval,
    Vector2.dist, Vector2.sub, Vector2.magnitude]

lemma segDeg_cumDist (i : ℕ) : (segDeg.sampler 2).cumDist i = 0 :=
  Finset.sum_eq_zero fun j _ => segDeg_chord j

/-- C7: the degenerate input on which the interpolation divides by zero.
The segment has length zero, and at the lookup `getPoint` performs for the
fraction 1/2 the denominator of the interpolation factor — the difference
of the bracketing cumulative distances — is zero, so the unguarded code
divides zero by zero there. -/
theorem claim_C7_zero_length_division :
    segDeg.length 2 = 0 ∧
      (segDeg.sampler 2).cumDist ((segDeg.sampler 2).bracket
          ((segDeg.sampler 2).clampDistance (segDeg.arcLength 2 * (1 / 2))) + 1) -
        (segDeg.sampler 2).cumDist ((segDeg.sampler 2).bracket
          ((segDeg.sampler 2).clampDistance (segDeg.arcLength 2 * (1 / 2)))) = 0 := by
  refine ⟨segDeg_cumDist _, ?_⟩
  rw [segDeg_cumDist, segDeg_cumDist, sub_zero]
